import Mathlib

/-!
Verification development for the content identity & recommendation subsystem
of the ukrfix-seo-bot repository: a shallow embedding, in Lean, of the pure
string/record algorithms in `src/utils/slugify.py`, `src/utils/history.py`,
`src/utils/title_optimizer.py` and `src/utils/content_enhancer.py`, together
with theorems settling the frozen specification claims about them.

Python strings are modelled as `List Char` (one element per code point, so
`List.length` agrees with Python `len`).  Python dictionaries that may lack
keys are modelled as structures with `Option` fields; `dict.get(k, d)` is
`Option.getD`.  File persistence (`save_history`/`load_history`) is I/O and
is outside the embedded core, exactly as the specification scopes it.
-/

set_option maxRecDepth 40000

/-- Python strings, one `Char` per code point. -/
abbrev Str := List Char

/-! ## Character model

The source manipulates Latin and Cyrillic text.  `pyLower`/`pyUpper` model
Python's `str.lower()`/`str.upper()` on the alphabets this program uses
(ASCII plus the Cyrillic block U+0400–U+04FF including Ukrainian Є І Ї Ґ);
all other characters are fixed, which matches Python on every character
appearing in this code base. -/

/-- `str.lower()` for one character (ASCII + Cyrillic, identity elsewhere). -/
def pyLower (c : Char) : Char :=
  let n := c.toNat
  if 0x400 ≤ n ∧ n ≤ 0x40F then Char.ofNat (n + 0x50)
  else if 0x410 ≤ n ∧ n ≤ 0x42F then Char.ofNat (n + 0x20)
  else if 65 ≤ n ∧ n ≤ 90 then Char.ofNat (n + 32)
  else if n = 0x490 then Char.ofNat 0x491
  else c

/-- `str.upper()` for one character (ASCII + Cyrillic, identity elsewhere). -/
def pyUpper (c : Char) : Char :=
  let n := c.toNat
  if 0x450 ≤ n ∧ n ≤ 0x45F then Char.ofNat (n - 0x50)
  else if 0x430 ≤ n ∧ n ≤ 0x44F then Char.ofNat (n - 0x20)
  else if 97 ≤ n ∧ n ≤ 122 then Char.ofNat (n - 32)
  else if n = 0x491 then Char.ofNat 0x490
  else c

/-- Python whitespace (`\s`, `str.isspace`, `str.split()`, bare `strip`):
space, tab, newline, carriage return, vertical tab, form feed. -/
def pyIsSpace (c : Char) : Bool :=
  c = ' ' || c = '\t' || c = '\n' || c = '\x0d' || c = '\x0b' || c = '\x0c'

/-- Regex class `[A-Z]`. -/
def isUpperA (c : Char) : Bool := decide (65 ≤ c.toNat ∧ c.toNat ≤ 90)

/-- Regex class `[a-z]`. -/
def isLowerA (c : Char) : Bool := decide (97 ≤ c.toNat ∧ c.toNat ≤ 122)

/-- Regex class `[0-9]` (Python `\d` also covers other Unicode digits,
which never occur in this program's data). -/
def isDigitA (c : Char) : Bool := decide (48 ≤ c.toNat ∧ c.toNat ≤ 57)

/-! ## Generic list-of-characters helpers

These realise, executably and with structural recursion, the string
operations the Python code performs through `re` and `str` methods. -/

/-- Replace every maximal run of characters satisfying `p` by the last
character of the run.  Applied with `p = (· = '-')` this is
`re.sub(r"-+", "-", s)`; applied after mapping whitespace to `' '` it is
`re.sub(r"\s+", " ", s)`. -/
def squeezeRuns (p : Char → Bool) : Str → Str
  | [] => []
  | [c] => [c]
  | c :: d :: rest =>
    if p c && p d then squeezeRuns p (d :: rest)
    else c :: squeezeRuns p (d :: rest)

/-- `s.strip(chars)`: drop characters satisfying `p` from both ends. -/
def stripEdge (p : Char → Bool) (s : Str) : Str :=
  ((s.dropWhile p).reverse.dropWhile p).reverse

/-- Helper for `splitRuns`: `acc` holds the reversed current token. -/
def splitRunsAux (sep : Char → Bool) : Str → Str → List Str
  | [], acc => if acc.isEmpty then [] else [acc.reverse]
  | c :: rest, acc =>
    if sep c then
      if acc.isEmpty then splitRunsAux sep rest []
      else acc.reverse :: splitRunsAux sep rest []
    else splitRunsAux sep rest (c :: acc)

/-- The maximal runs of characters *not* satisfying `sep`, in order.  This is
`re.split` on `sep`-runs with empty pieces discarded (equivalently
`re.findall` of non-`sep` runs, or `str.split()` when `sep` is whitespace). -/
def splitRuns (sep : Char → Bool) (s : Str) : List Str :=
  splitRunsAux sep s []

/-- `sep.join(tokens)` for a one-character separator. -/
def joinSep (sep : Char) : List Str → Str
  | [] => []
  | [t] => t
  | t :: t' :: rest => t ++ sep :: joinSep sep (t' :: rest)

/-- Python's substring test `needle in haystack`. -/
def containsSub (needle : Str) : Str → Bool
  | [] => needle.isEmpty
  | c :: rest => needle.isPrefixOf (c :: rest) || containsSub needle rest

/-- `s.split(marker, 1)` when the marker occurs: the part before the first
occurrence and the part after it; `none` when it does not occur
(for a non-empty marker). -/
def splitFirst (marker : Str) : Str → Option (Str × Str)
  | [] => if marker.isEmpty then some ([], []) else none
  | c :: rest =>
    if marker.isPrefixOf (c :: rest) then some ([], (c :: rest).drop marker.length)
    else
      match splitFirst marker rest with
      | some (p, q) => some (c :: p, q)
      | none => none

/-! ## `src/utils/slugify.py` -/

/-- The `UA_MAP` table: basic Ukrainian → Latin mapping used as a safe
fallback (one Cyrillic letter may map to several Latin letters). -/
def UA_MAP : Char → Option Str
  | 'а' => some "a".toList
  | 'б' => some "b".toList
  | 'в' => some "v".toList
  | 'г' => some "h".toList
  | 'ґ' => some "g".toList
  | 'д' => some "d".toList
  | 'е' => some "e".toList
  | 'є' => some "ie".toList
  | 'ж' => some "zh".toList
  | 'з' => some "z".toList
  | 'и' => some "y".toList
  | 'і' => some "i".toList
  | 'ї' => some "yi".toList
  | 'й' => some "i".toList
  | 'к' => some "k".toList
  | 'л' => some "l".toList
  | 'м' => some "m".toList
  | 'н' => some "n".toList
  | 'о' => some "o".toList
  | 'п' => some "p".toList
  | 'р' => some "r".toList
  | 'с' => some "s".toList
  | 'т' => some "t".toList
  | 'у' => some "u".toList
  | 'ф' => some "f".toList
  | 'х' => some "kh".toList
  | 'ц' => some "ts".toList
  | 'ч' => some "ch".toList
  | 'ш' => some "sh".toList
  | 'щ' => some "shch".toList
  | 'ю' => some "yu".toList
  | 'я' => some "ya".toList
  | _ => none

/-- The slug `STOP_WORDS` set (transliterated Ukrainian and English);
the source's duplicate entries are kept, which is harmless for membership. -/
def slugStopWords : List Str :=
  (["i", "ta", "a", "y", "yi", "yiyi", "ale", "abo", "chi", "pro", "dlia",
    "dla", "dlya", "na", "u", "v", "za", "vid", "do", "po", "pid", "nad",
    "pid", "pere", "yak", "tse", "ce", "hto", "khto", "tylki", "tilky",
    "tilki", "te", "tsya", "tsyi", "tsye", "miz", "miz", "z", "iz",
    "the", "and", "or", "for", "of", "to", "in", "on", "with", "by",
    "from", "a", "an", "how", "where", "what", "why", "when", "best",
    "top"] : List String).map String.toList

/-- `_fallback_transliterate`: per character, lower-case it; map it through
`UA_MAP`; else keep `[a-z0-9]` characters; else turn whitespace, `-`, `_`
into a space; drop everything else. -/
def fallback_transliterate (text : Str) : Str :=
  text.flatMap (fun ch =>
    let lower := pyLower ch
    match UA_MAP lower with
    | some value => value
    | none =>
      if isLowerA lower || isDigitA lower then [lower]
      else if pyIsSpace lower || lower = '-' || lower = '_' then [' ']
      else [])

/-- The check `re.search(r"[\\u0400-\\u04FF]", converted)` on line 143 of
`slugify.py`.  The pattern is a *raw* string, so the regex engine sees the
two backslashes as an escaped literal backslash: the character class consists
of `\`, `u`, `0`, `4`, `F` and the range `0`–`\` (i.e. code points
0x30–0x5C), not of the Cyrillic block U+0400–U+04FF that the adjacent
comment ("fallback if Cyrillic remains") intends. -/
def buggyCyrillicSearch (s : Str) : Bool :=
  s.any (fun c => decide (0x30 ≤ c.toNat ∧ c.toNat ≤ 0x5C) || c = 'u')

/-- Does a string contain a character of the Cyrillic block U+0400–U+04FF?
This is what the regex `[Ѐ-ӿ]` (single backslash) would test. -/
def containsCyrillic (s : Str) : Bool :=
  s.any (fun c => decide (0x400 ≤ c.toNat ∧ c.toNat ≤ 0x4FF))

/-- `transliterate_uk`.  The optional `cyrtranslit.to_latin` library function
is a parameter: `none` when the package is absent; when present, its result
is `none` if the call raises (the `except` path) and `some converted`
otherwise. -/
def transliterate_uk (toLatin : Option (Str → Option Str)) (text : Str) : Str :=
  match toLatin with
  | some f =>
    match f text with
    | some converted =>
      if buggyCyrillicSearch converted then fallback_transliterate text
      else converted
    | none => fallback_transliterate text
  | none => fallback_transliterate text

/-- Regex class `[a-zA-Z0-9\s_-]`, the characters `_tokenize` keeps. -/
def isTokAllowed (c : Char) : Bool :=
  isUpperA c || isLowerA c || isDigitA c || pyIsSpace c || c = '_' || c = '-'

/-- Separator class `[\s_-]` that `_tokenize` splits on. -/
def isSepChar (c : Char) : Bool := pyIsSpace c || c = '_' || c = '-'

/-- `_tokenize` of `slugify.py`: replace every character outside
`[a-zA-Z0-9\s_-]` by a space, lower-case, split on runs of `[\s_-]`,
drop empty parts. -/
def tokenizeSlug (text : Str) : List Str :=
  let cleaned := text.map (fun c => if isTokAllowed c then c else ' ')
  splitRuns isSepChar (cleaned.map pyLower)

/-- Helper for `_filter_stop_words`; `seen` is the set of already-kept words. -/
def filter_stop_words_aux : List Str → List Str → List Str
  | [], _ => []
  | w :: ws, seen =>
    if w ∈ slugStopWords then filter_stop_words_aux ws seen
    else if w ∈ seen then filter_stop_words_aux ws seen
    else w :: filter_stop_words_aux ws (w :: seen)

/-- `_filter_stop_words`: drop stop words and duplicates, keeping the first
occurrence of each remaining word. -/
def filter_stop_words (words : List Str) : List Str :=
  filter_stop_words_aux words []

/-- `_trim_keywords`: keep 3–5 meaningful keywords when the source is long. -/
def trim_keywords (words : List Str) (maxWords : Nat := 5) : List Str :=
  if words.length ≤ maxWords then words
  else
    let trimmed := words.take maxWords
    if 3 ≤ trimmed.length then trimmed else words.take 3

/-- `_collapse_hyphens`: `re.sub(r"-+", "-", slug).strip("-")`. -/
def collapse_hyphens (s : Str) : Str :=
  stripEdge (fun c => decide (c = '-')) (squeezeRuns (fun c => decide (c = '-')) s)

/-- `_looks_like_template`: `re.match(r"^(article|post|page|blog)-\d+$", slug)`.
(`re.match` with a final `$` would also accept one trailing newline, but the
slugs this is applied to consist of `[a-z0-9-]` only, so that edge cannot
arise.) -/
def looks_like_template (s : Str) : Bool :=
  (["article", "post", "page", "blog"] : List String).any (fun p =>
    let pl := p.toList ++ ['-']
    pl.isPrefixOf s &&
      (let rest := s.drop pl.length
       !rest.isEmpty && rest.all isDigitA))

/-- The fixed fallback slug. -/
def fallbackSlug : Str := "ukrfix-article".toList

/-- `generate_slug`: transliterate, tokenize, drop stop words (falling back
to the raw token list when that empties it), keep 3–5 keywords, join with
hyphens, enforce the maximum length, and replace templated or empty results
by the fallback slug. -/
def generate_slug (toLatin : Option (Str → Option Str)) (text : Str)
    (maxLength : Nat := 75) : Str :=
  let transliterated := transliterate_uk toLatin text
  let tokens := tokenizeSlug transliterated
  let meaningful := filter_stop_words tokens
  let meaningful := if meaningful.isEmpty then tokens else meaningful
  let meaningful := trim_keywords meaningful 5
  let slug := collapse_hyphens (joinSep '-' meaningful)
  let slug := if maxLength < slug.length then collapse_hyphens (slug.take maxLength) else slug
  let slug := if looks_like_template slug || slug.isEmpty then fallbackSlug else slug
  if slug.isEmpty then fallbackSlug else slug

/-! ## `src/models/article.py` and `src/utils/history.py` -/

/-- The `ArticleData` dataclass. -/
structure ArticleData where
  title : Str
  html_content : Str
  meta_description : Str
  slug : Str
  tags : List Str
  category : Str
  title_case : Option Str := none
  sentence_case : Option Str := none
deriving DecidableEq, Repr

/-- A history record: a JSON dictionary with the five keys
`add_article_record` writes, any of which may be missing in loaded data
(`dict.get` is `Option.getD`). -/
structure HistRecord where
  title : Option Str := none
  slug : Option Str := none
  url : Option Str := none
  tags : Option (List Str) := none
  category : Option Str := none
deriving DecidableEq, Repr

/-- Regex class `[\w']` of history's `_tokenize`: word characters (ASCII
letters, digits, underscore — and, `\w` being Unicode-aware, the Cyrillic
letters this program's data uses) plus the apostrophe. -/
def pyWordChar (c : Char) : Bool :=
  isUpperA c || isLowerA c || isDigitA c || c = '_' ||
    decide (0x400 ≤ c.toNat ∧ c.toNat ≤ 0x4FF) || c = '\''

/-- `_tokenize` of `history.py`: `re.findall(r"[\w']+", text.lower())`
(the `set(...)` around it is taken via `List.toFinset` at use sites). -/
def histTokenize (text : Str) : List Str :=
  splitRuns (fun c => !pyWordChar c) (text.map pyLower)

/-- The article's token set in `find_internal_links`: lower-cased tags,
tokenized title, lower-cased category. -/
def articleTokens (a : ArticleData) : Finset Str :=
  (a.tags.map (List.map pyLower)).toFinset ∪ (histTokenize a.title).toFinset ∪
    {a.category.map pyLower}

/-- A candidate record's token set: lower-cased tags, tokenized title, and
the lower-cased category when present and non-empty (`if rec.get("category")`). -/
def recTokens (r : HistRecord) : Finset Str :=
  ((r.tags.getD []).map (List.map pyLower)).toFinset ∪
    (histTokenize (r.title.getD [])).toFinset ∪
    (match r.category with
     | some c => if c.isEmpty then ∅ else {c.map pyLower}
     | none => ∅)

/-- The body of the candidate loop in `find_internal_links` for one record:
`none` when the record is skipped (same slug as the article, missing or
empty url, or zero token overlap), otherwise the score: the overlap plus a
category-match bonus. -/
def candidateScore (a : ArticleData) (r : HistRecord) : Option Nat :=
  if r.slug = some a.slug then none
  else
    match r.url with
    | none => none
    | some u =>
      if u.isEmpty then none
      else
        let overlap := (articleTokens a ∩ recTokens r).card
        if overlap = 0 then none
        else
          some (overlap +
            (if (r.category.getD []).map pyLower = a.category.map pyLower then 1 else 0))

/-- The `scored` list built by iterating `reversed(records)` (most recent
first).  The middle component instruments each entry with the record's index
in `records` so that ordering properties can be stated; it is projected away
in `find_internal_links`. -/
def scoredCandidates (a : ArticleData) (records : List HistRecord) :
    List (Nat × Nat × HistRecord) :=
  records.enum.reverse.filterMap
    (fun p => (candidateScore a p.2).map (fun s => (s, p.1, p.2)))

/-- Insert into a score-descending list, after entries of strictly greater
score and before entries of smaller-or-equal score. -/
def insertScored (a : Nat × Nat × HistRecord) :
    List (Nat × Nat × HistRecord) → List (Nat × Nat × HistRecord)
  | [] => [a]
  | b :: t => if a.1 < b.1 then b :: insertScored a t else a :: b :: t

/-- `scored.sort(key=lambda item: item[0], reverse=True)`: a *stable* sort
by score descending.  Python's `list.sort` is documented stable, and a stable
sort's output is uniquely determined by the key order and the input order, so
this structurally recursive stable insertion sort computes exactly the same
list. -/
def sortScoredDesc : List (Nat × Nat × HistRecord) → List (Nat × Nat × HistRecord)
  | [] => []
  | a :: t => insertScored a (sortScoredDesc t)

/-- A `{"title": ..., "url": ...}` dictionary as produced by
`find_internal_links` and consumed by `inject_internal_links`.  Every
producer in the repository sets the `title` key, which the consumer indexes
directly; `url` is read with `get` and so may be absent. -/
structure LinkD where
  title : Str
  url : Option Str
deriving DecidableEq, Repr

/-- `find_internal_links`: score the history records (most recent first),
stable-sort by score descending, return the first `max_links` as
title/url dictionaries. -/
def find_internal_links (a : ArticleData) (records : List HistRecord)
    (maxLinks : Nat := 2) : List LinkD :=
  if records.isEmpty then []
  else
    ((sortScoredDesc (scoredCandidates a records)).take maxLinks).map
      (fun e => ⟨e.2.2.title.getD [], some (e.2.2.url.getD [])⟩)

/-- `add_article_record` (without the `save_history` file write, which is
I/O): build the url, skip if the slug already exists, else append the new
record. -/
def add_article_record (article : ArticleData) (wpUrl : Str)
    (records : List HistRecord) : List HistRecord :=
  let url := (wpUrl.reverse.dropWhile (fun c => decide (c = '/'))).reverse ++ ['/'] ++
    stripEdge (fun c => decide (c = '/')) article.slug ++ ['/']
  if records.any (fun r => decide (r.slug = some article.slug)) then records
  else
    records ++ [{ title := some article.title, slug := some article.slug,
                  url := some url, tags := some article.tags,
                  category := some article.category }]

/-! ## `src/utils/content_enhancer.py` -/

/-- The fixed call-to-action sentence. -/
def CTA_TEXT : Str :=
  "Якщо вам потрібна допомога — звертайтеся в UkrFix. Знайдемо найкраще рішення 🚀".toList

/-- The fixed call-to-action button markup. -/
def CTA_BUTTON : Str :=
  "<a href=\"https://ukrfix.com/add-listing/\" class=\"btn-submit\">Подати оголошення на UkrFix безкоштовно</a>".toList

/-- The rendered CTA block: the f-string of the source with its leading and
trailing newline removed by `.strip()`. -/
def CTA_BLOCK : Str :=
  "<div class=\"cta-block\">\n  <p>".toList ++ CTA_TEXT ++ "</p>\n  ".toList ++
    CTA_BUTTON ++ "\n</div>".toList

/-- `ensure_cta_block`: append the CTA block unless the (lower-cased) content
already contains the CTA sentence or the `add-listing` url fragment. -/
def ensure_cta_block (content : Str) : Str :=
  let lower := content.map pyLower
  if containsSub (CTA_TEXT.map pyLower) lower ||
      containsSub "add-listing".toList lower then content
  else
    (content.reverse.dropWhile pyIsSpace).reverse ++ "\n\n".toList ++
      CTA_BLOCK ++ "\n".toList

/-- One `<li>` item of the internal-links block (only built for links whose
`url` is present and non-empty). -/
def linkItem (l : LinkD) : Str :=
  "<li><a href=\"".toList ++ l.url.getD [] ++
    "\" target=\"_blank\" rel=\"noopener\">".toList ++ l.title ++ "</a></li>".toList

/-- The `cta_marker` constant. -/
def ctaMarker : Str := "<div class=\"cta-block\">".toList

/-- `inject_internal_links`: no-op when `links` is empty, when an
`internal-links` marker is already present, or when no link has a usable
url; otherwise build the block and place it before the CTA block when one
exists, else append it. -/
def inject_internal_links (content : Str) (links : List LinkD) : Str :=
  if links.isEmpty then content
  else if containsSub "internal-links".toList content then content
  else
    let items :=
      (links.filter (fun l => !(l.url.getD []).isEmpty)).flatMap linkItem
    if items.isEmpty then content
    else
      let block := "<div class=\"internal-links\">\n  <h3>Читайте також:</h3>\n  <ul>\n    ".toList ++
        items ++ "\n  </ul>\n</div>".toList
      match splitFirst ctaMarker content with
      | some (pre, post) =>
        (pre.reverse.dropWhile pyIsSpace).reverse ++ "\n\n".toList ++ block ++
          "\n\n".toList ++ ctaMarker ++ post
      | none =>
        (content.reverse.dropWhile pyIsSpace).reverse ++ "\n\n".toList ++
          block ++ "\n".toList

/-! ## `src/utils/title_optimizer.py` -/

/-- The Ukrainian headline `STOP_WORDS` set of the title optimizer. -/
def titleStopWords : List Str :=
  (["і", "й", "та", "а", "але", "чи", "або", "у", "в", "з", "із", "зі",
    "за", "як", "що", "для", "про", "на", "до", "без", "при", "під",
    "над", "через", "після"] : List String).map String.toList

/-- The punctuation class of `_clean_text`'s `strip("-–—:;,.")`. -/
def edgePunct (c : Char) : Bool :=
  decide (c ∈ (['-', '–', '—', ':', ';', ',', '.'] : List Char))

/-- The punctuation class of `_truncate`'s `rstrip("-–—:;,")` (no dot). -/
def trailPunct (c : Char) : Bool :=
  decide (c ∈ (['-', '–', '—', ':', ';', ','] : List Char))

/-- `_clean_text`: collapse whitespace runs to single spaces, strip edge
whitespace, strip edge punctuation. -/
def clean_text (text : Str) : Str :=
  let collapsed := squeezeRuns pyIsSpace (text.map (fun c => if pyIsSpace c then ' ' else c))
  stripEdge edgePunct (stripEdge pyIsSpace collapsed)

/-- `_trim_stop_words`: remove stop words from the beginning of the string
only (repeatedly, while the first word is a stop word). -/
def trim_stop_words (text : Str) : Str :=
  let words := splitRuns pyIsSpace text
  joinSep ' ' (words.dropWhile (fun w => decide ((w.map pyLower) ∈ titleStopWords)))

/-- `word[:1].upper() + word[1:]`. -/
def capitalizeWord : Str → Str
  | [] => []
  | c :: rest => pyUpper c :: rest

/-- `_to_sentence_case`: clean, then upper-case the first character. -/
def to_sentence_case (text : Str) : Str :=
  match clean_text text with
  | [] => []
  | c :: rest => pyUpper c :: rest

/-- `_to_title_case`: capitalize every word except non-leading stop words,
which are lower-cased. -/
def to_title_case (text : Str) : Str :=
  let words := splitRuns pyIsSpace (clean_text text)
  joinSep ' ' (words.enum.map (fun p =>
    let lowerWord := p.2.map pyLower
    if p.1 ≠ 0 ∧ lowerWord ∈ titleStopWords then lowerWord else capitalizeWord p.2))

/-- `_truncate`: keep whole words when cutting to the limit, strip trailing
punctuation, append an ellipsis, and hard-cut if the ellipsis overflows. -/
def truncateTitle (text : Str) (limit : Nat) : Str :=
  if text.length ≤ limit then text
  else
    let cut := text.take limit
    let cut := if ' ' ∈ cut
      then ((cut.reverse.dropWhile (fun c => decide (c ≠ ' '))).drop 1).reverse
      else cut
    let cut := (cut.reverse.dropWhile trailPunct).reverse
    let trimmed := cut ++ "...".toList
    if limit < trimmed.length then trimmed.take limit else trimmed

/-- The fixed default title. -/
def DEFAULT_TITLE : Str := "UkrFix: нова стаття".toList

/-- `optimize_title`: returns `(chosen, title_case, sentence_case)`. -/
def optimize_title (rawTitle : Str) (maxLength : Nat := 60) : Str × Str × Str :=
  let base := trim_stop_words (clean_text rawTitle)
  let sentenceCase := truncateTitle (to_sentence_case base) maxLength
  let titleCase := truncateTitle (to_title_case base) maxLength
  let preferred := if titleCase.length ≤ maxLength then titleCase else sentenceCase
  let preferred := if preferred.isEmpty then DEFAULT_TITLE else preferred
  (preferred, if titleCase.isEmpty then preferred else titleCase,
    if sentenceCase.isEmpty then preferred else sentenceCase)

/-! ## Predicates and sample data used by the claim statements -/

/-- Regex class `[a-z0-9]`: the characters a slug token may consist of. -/
def goodSlugChar (c : Char) : Bool := isLowerA c || isDigitA c

/-- The language of the regex `^[a-z0-9]+(-[a-z0-9]+)*$`: non-empty, every
character is `[a-z0-9]` or `-`, no leading or trailing hyphen, and no two
adjacent hyphens. -/
def isSlugLike (s : Str) : Prop :=
  s ≠ [] ∧ (∀ c ∈ s, goodSlugChar c = true ∨ c = '-') ∧
    s.head? ≠ some '-' ∧ s.getLast? ≠ some '-' ∧
    List.Chain' (fun a b => ¬(a = '-' ∧ b = '-')) s

/-- The hyphen-separated tokens of a slug. -/
def slugTokens (s : Str) : List Str :=
  splitRuns (fun c => decide (c = '-')) s

/-- Strict lexicographic order on scored candidates: higher score first,
and among equal scores the larger `records` index (the more recently
appended record) first. -/
def scoreLex (x y : Nat × Nat × HistRecord) : Prop :=
  y.1 < x.1 ∨ (x.1 = y.1 ∧ y.2.1 < x.2.1)

/-- A sample article sharing no token with `sampleRecords`' only record. -/
def sampleArticle : ArticleData :=
  { title := "aa".toList, html_content := [], meta_description := [],
    slug := "s1".toList, tags := [], category := "bb".toList }

/-- A single-record history with tokens disjoint from `sampleArticle`'s. -/
def sampleRecords : List HistRecord :=
  [{ title := some "cc".toList, slug := some "s2".toList,
     url := some "u".toList, tags := some [], category := some "dd".toList }]

/-- An article used to exercise `find_internal_links` on a non-trivial
history (for witnesses). -/
def overlapArticle : ArticleData :=
  { title := "alpha beta".toList, html_content := [], meta_description := [],
    slug := "sl".toList, tags := [], category := "cat".toList }

/-- Two records that both share the token `alpha` with `overlapArticle`
(equal scores, so the tie-break is observable). -/
def overlapRecords : List HistRecord :=
  [{ title := some "alpha one".toList, slug := some "r1".toList,
     url := some "u1".toList, tags := some [], category := some "x".toList },
   { title := some "alpha two".toList, slug := some "r2".toList,
     url := some "u2".toList, tags := some [], category := some "x".toList }]

/-- Input whose slug, joined from the deduplicated tokens
`ab`, `c…c` (69 times), `abz`, is 76 characters long, so the default
75-character cut truncates the last token to `ab` again. -/
def repeatTokenText : Str :=
  "ab ".toList ++ List.replicate 69 'c' ++ " abz".toList

/-! ## Theorems -/

theorem char_toNat_ofNat {n : Nat} (h : n < 0xD800) : (Char.ofNat n).toNat = n := by
  have hv : n.isValidChar := Or.inl h
  rw [Char.ofNat, dif_pos hv]
  simp [Char.ofNatAux, Char.toNat, UInt32.ofNat', UInt32.toNat, BitVec.toNat_ofNatLt]

/-! ### `squeezeRuns` -/

theorem squeezeRuns_cons_head (p : Char → Bool) :
    ∀ (d : Char) (rest : Str), ∃ h t, squeezeRuns p (d :: rest) = h :: t ∧
      (h = d ∨ (p d = true ∧ p h = true))
  | d, [] => ⟨d, [], rfl, Or.inl rfl⟩
  | d, e :: r => by
    by_cases h : p d && p e
    · obtain ⟨h', t', heq, hh⟩ := squeezeRuns_cons_head p e r
      refine ⟨h', t', ?_, ?_⟩
      · simp only [squeezeRuns, if_pos h]
        exact heq
      · have hde : p d = true ∧ p e = true := by simpa using h
        rcases hh with rfl | ⟨_, hp2⟩
        · exact Or.inr hde
        · exact Or.inr ⟨hde.1, hp2⟩
    · exact ⟨d, squeezeRuns p (e :: r), by simp only [squeezeRuns, if_neg h], Or.inl rfl⟩

theorem squeezeRuns_chain (p : Char → Bool) :
    ∀ s : Str, List.Chain' (fun a b => ¬(p a = true ∧ p b = true)) (squeezeRuns p s)
  | [] => by simp [squeezeRuns]
  | [c] => by simp [squeezeRuns]
  | c :: d :: rest => by
    by_cases h : p c && p d
    · simpa only [squeezeRuns, if_pos h] using squeezeRuns_chain p (d :: rest)
    · simp only [squeezeRuns, if_neg h]
      obtain ⟨h', t', heq, hh⟩ := squeezeRuns_cons_head p d rest
      rw [heq, List.chain'_cons]
      constructor
      · rintro ⟨hc, hh'⟩
        rcases hh with rfl | ⟨hd, -⟩
        · exact h (by simp [hc, hh'])
        · exact h (by simp [hc, hd])
      · rw [← heq]
        exact squeezeRuns_chain p (d :: rest)

theorem squeezeRuns_subset (p : Char → Bool) :
    ∀ s : Str, ∀ c ∈ squeezeRuns p s, c ∈ s
  | [] => by simp [squeezeRuns]
  | [c] => by simp [squeezeRuns]
  | c :: d :: rest => by
    intro x hx
    by_cases h : p c && p d
    · rw [squeezeRuns, if_pos h] at hx
      exact List.mem_cons_of_mem c (squeezeRuns_subset p (d :: rest) x hx)
    · rw [squeezeRuns, if_neg h] at hx
      rcases List.mem_cons.mp hx with rfl | hx
      · exact List.mem_cons_self _ _
      · exact List.mem_cons_of_mem c (squeezeRuns_subset p (d :: rest) x hx)

theorem squeezeRuns_length (p : Char → Bool) :
    ∀ s : Str, (squeezeRuns p s).length ≤ s.length
  | [] => Nat.le_refl _
  | [c] => Nat.le_refl _
  | c :: d :: rest => by
    by_cases h : p c && p d
    · rw [squeezeRuns, if_pos h]
      exact Nat.le_succ_of_le (squeezeRuns_length p (d :: rest))
    · rw [squeezeRuns, if_neg h]
      simpa using squeezeRuns_length p (d :: rest)

theorem squeezeRuns_id (p : Char → Bool) :
    ∀ s : Str, List.Chain' (fun a b => ¬(p a = true ∧ p b = true)) s →
      squeezeRuns p s = s
  | [], _ => rfl
  | [c], _ => rfl
  | c :: d :: rest, hch => by
    have h1 : ¬(p c = true ∧ p d = true) := (List.chain'_cons.mp hch).1
    have h : ¬(p c && p d) = true := by
      simp only [Bool.and_eq_true]
      exact h1
    rw [squeezeRuns, if_neg h, squeezeRuns_id p (d :: rest) (List.chain'_cons.mp hch).2]

/-! ### `stripEdge` -/

theorem chain'_reverse_of_symm {R : Char → Char → Prop}
    (hsymm : ∀ a b, R a b → R b a) (l : Str) (h : List.Chain' R l) :
    List.Chain' R l.reverse := by
  rw [List.chain'_reverse]
  exact h.imp (fun a b hab => hsymm a b hab)

theorem stripEdge_head (p : Char → Bool) (s : Str) :
    ∀ h, (stripEdge p s).head? = some h → p h = false := by
  intro h hh
  unfold stripEdge at hh
  rw [List.head?_reverse] at hh
  set L := (s.dropWhile p).reverse.dropWhile p with hL
  have hLne : L ≠ [] := by
    intro he
    rw [he] at hh
    simp at hh
  obtain ⟨t, ht⟩ : L <:+ (s.dropWhile p).reverse := List.dropWhile_suffix p
  have hlast : L.getLast? = ((s.dropWhile p).reverse).getLast? := by
    rw [← ht]
    exact (List.getLast?_append_of_ne_nil _ hLne).symm
  rw [hlast, List.getLast?_reverse] at hh
  have := List.head?_dropWhile_not p s
  rw [hh] at this
  exact this

theorem stripEdge_getLast (p : Char → Bool) (s : Str) :
    ∀ h, (stripEdge p s).getLast? = some h → p h = false := by
  intro h hh
  unfold stripEdge at hh
  rw [List.getLast?_reverse] at hh
  have := List.head?_dropWhile_not p (s.dropWhile p).reverse
  rw [hh] at this
  exact this

theorem stripEdge_sublist (p : Char → Bool) (s : Str) :
    List.Sublist (stripEdge p s) s := by
  unfold stripEdge
  have h1 : List.Sublist ((s.dropWhile p).reverse.dropWhile p) (s.dropWhile p).reverse :=
    (List.dropWhile_suffix p).sublist
  have h2 : List.Sublist (((s.dropWhile p).reverse.dropWhile p).reverse) (s.dropWhile p) := by
    simpa using h1.reverse
  exact h2.trans (List.dropWhile_suffix p).sublist

theorem stripEdge_subset (p : Char → Bool) (s : Str) :
    ∀ c ∈ stripEdge p s, c ∈ s :=
  fun _ hc => (stripEdge_sublist p s).subset hc

theorem stripEdge_length (p : Char → Bool) (s : Str) :
    (stripEdge p s).length ≤ s.length :=
  (stripEdge_sublist p s).length_le

theorem stripEdge_chain {R : Char → Char → Prop} (p : Char → Bool) (s : Str)
    (hs : List.Chain' R s) (hsymm : ∀ a b, R a b → R b a) :
    List.Chain' R (stripEdge p s) := by
  unfold stripEdge
  exact chain'_reverse_of_symm hsymm _
    (((chain'_reverse_of_symm hsymm _
      (hs.suffix (List.dropWhile_suffix p))).suffix (List.dropWhile_suffix p)))

theorem stripEdge_id (p : Char → Bool) (s : Str)
    (h1 : ∀ h, s.head? = some h → p h = false)
    (h2 : ∀ h, s.getLast? = some h → p h = false) :
    stripEdge p s = s := by
  have hd : ∀ (l : Str), (∀ h, l.head? = some h → p h = false) → l.dropWhile p = l := by
    intro l hl
    cases l with
    | nil => rfl
    | cons c t =>
      rw [List.dropWhile_cons, if_neg]
      simp [hl c rfl]
  unfold stripEdge
  rw [hd s h1, hd s.reverse (fun h hh => h2 h (by rwa [List.head?_reverse] at hh)),
    List.reverse_reverse]

/-! ### `splitRuns` and `joinSep` -/

theorem splitRunsAux_good (sep : Char → Bool) (P : Char → Prop) :
    ∀ (s acc : Str), (∀ c ∈ s, sep c = true ∨ P c) →
      (∀ c ∈ acc, sep c = false ∧ P c) →
      ∀ t ∈ splitRunsAux sep s acc, t ≠ [] ∧ ∀ c ∈ t, sep c = false ∧ P c
  | [], acc, _, hacc => by
    intro t ht
    rw [splitRunsAux] at ht
    split at ht
    · simp at ht
    · rename_i hne
      rcases List.mem_singleton.mp ht with rfl
      refine ⟨by simpa using hne, ?_⟩
      intro c hc
      exact hacc c (List.mem_reverse.mp hc)
  | c :: rest, acc, hs, hacc => by
    intro t ht
    rw [splitRunsAux] at ht
    by_cases hc : sep c = true
    · rw [if_pos hc] at ht
      split at ht
      · exact splitRunsAux_good sep P rest [] (fun x hx => hs x (List.mem_cons_of_mem c hx))
          (by simp) t ht
      · rename_i hne
        rcases List.mem_cons.mp ht with rfl | ht'
        · refine ⟨by simpa using hne, ?_⟩
          intro x hx
          exact hacc x (List.mem_reverse.mp hx)
        · exact splitRunsAux_good sep P rest []
            (fun x hx => hs x (List.mem_cons_of_mem c hx)) (by simp) t ht'
    · rw [if_neg hc] at ht
      have hPc : P c := by
        rcases hs c (List.mem_cons_self c rest) with h | h
        · exact absurd h hc
        · exact h
      refine splitRunsAux_good sep P rest (c :: acc)
        (fun x hx => hs x (List.mem_cons_of_mem c hx)) ?_ t ht
      intro x hx
      rcases List.mem_cons.mp hx with rfl | hx'
      · exact ⟨by simpa using hc, hPc⟩
      · exact hacc x hx'

theorem splitRuns_good (sep : Char → Bool) (P : Char → Prop) (s : Str)
    (hs : ∀ c ∈ s, sep c = true ∨ P c) :
    ∀ t ∈ splitRuns sep s, t ≠ [] ∧ ∀ c ∈ t, sep c = false ∧ P c :=
  splitRunsAux_good sep P s [] hs (by simp)

theorem splitRunsAux_nonsep (sep : Char → Bool) :
    ∀ (t l acc : Str), (∀ c ∈ t, sep c = false) →
      splitRunsAux sep (t ++ l) acc = splitRunsAux sep l (t.reverse ++ acc)
  | [], l, acc, _ => by simp
  | c :: t', l, acc, ht => by
    have hc : sep c = false := ht c (List.mem_cons_self c t')
    rw [List.cons_append, splitRunsAux, if_neg (by simp [hc])]
    rw [splitRunsAux_nonsep sep t' l (c :: acc) (fun x hx => ht x (List.mem_cons_of_mem c hx))]
    simp

theorem splitRuns_joinSep (sep : Char → Bool) (hyph : sep '-' = true) :
    ∀ ts : List Str, ts ≠ [] → (∀ t ∈ ts, t ≠ [] ∧ ∀ c ∈ t, sep c = false) →
      splitRuns sep (joinSep '-' ts) = ts
  | [], hne, _ => absurd rfl hne
  | [t], _, hts => by
    have h := hts t (List.mem_singleton.mpr rfl)
    rw [joinSep, splitRuns, ← List.append_nil t,
      splitRunsAux_nonsep sep t [] [] h.2, splitRunsAux]
    rw [if_neg (by simpa using h.1)]
    simp
  | t :: t' :: rest, _, hts => by
    have h := hts t (List.mem_cons_self _ _)
    rw [joinSep, splitRuns, splitRunsAux_nonsep sep t _ [] h.2, splitRunsAux,
      if_pos hyph, if_neg (by simpa using h.1)]
    have ih := splitRuns_joinSep sep hyph (t' :: rest) (by simp)
      (fun x hx => hts x (List.mem_cons_of_mem t hx))
    rw [splitRuns] at ih
    simp only [List.append_nil, List.reverse_reverse]
    rw [ih]

theorem joinSep_mem (sep : Char) :
    ∀ (ts : List Str) (c : Char), c ∈ joinSep sep ts → c = sep ∨ ∃ t ∈ ts, c ∈ t
  | [], c => by simp [joinSep]
  | [t], c => by
    intro hc
    rw [joinSep] at hc
    exact Or.inr ⟨t, List.mem_singleton.mpr rfl, hc⟩
  | t :: t' :: rest, c => by
    intro hc
    rw [joinSep] at hc
    rcases List.mem_append.mp hc with h | h
    · exact Or.inr ⟨t, List.mem_cons_self _ _, h⟩
    · rcases List.mem_cons.mp h with rfl | h'
      · exact Or.inl rfl
      · rcases joinSep_mem sep (t' :: rest) c h' with h'' | ⟨u, hu, hcu⟩
        · exact Or.inl h''
        · exact Or.inr ⟨u, List.mem_cons_of_mem t hu, hcu⟩

theorem joinSep_ne_nil (sep : Char) :
    ∀ (ts : List Str), ts ≠ [] → (∀ t ∈ ts, t ≠ []) → joinSep sep ts ≠ []
  | [], hne, _ => absurd rfl hne
  | [t], _, hts => by
    rw [joinSep]
    exact hts t (List.mem_singleton.mpr rfl)
  | t :: t' :: rest, _, hts => by
    rw [joinSep]
    simp [hts t (List.mem_cons_self _ _)]

theorem joinSep_head (sep : Char) :
    ∀ (ts : List Str) (h : Char), ts ≠ [] → (∀ t ∈ ts, t ≠ []) →
      (joinSep sep ts).head? = some h → ∃ t ∈ ts, t.head? = some h
  | [], h, hne, _ => absurd rfl hne
  | [t], h, _, _ => by
    intro hh
    exact ⟨t, List.mem_singleton.mpr rfl, by rwa [joinSep] at hh⟩
  | t :: t' :: rest, h, _, hts => by
    intro hh
    rw [joinSep, List.head?_append_of_ne_nil _ (hts t (List.mem_cons_self _ _))] at hh
    exact ⟨t, List.mem_cons_self _ _, hh⟩

theorem joinSep_getLast (sep : Char) :
    ∀ (ts : List Str) (h : Char), ts ≠ [] → (∀ t ∈ ts, t ≠ []) →
      (joinSep sep ts).getLast? = some h → ∃ t ∈ ts, t.getLast? = some h
  | [], h, hne, _ => absurd rfl hne
  | [t], h, _, _ => by
    intro hh
    exact ⟨t, List.mem_singleton.mpr rfl, by rwa [joinSep] at hh⟩
  | t :: t' :: rest, h, _, hts => by
    intro hh
    rw [joinSep] at hh
    have hne : sep :: joinSep sep (t' :: rest) ≠ [] := by simp
    rw [List.getLast?_append_of_ne_nil _ hne] at hh
    have hjne : joinSep sep (t' :: rest) ≠ [] :=
      joinSep_ne_nil sep (t' :: rest) (by simp)
        (fun x hx => hts x (List.mem_cons_of_mem t hx))
    rcases List.exists_cons_of_ne_nil hjne with ⟨y, ys, hys⟩
    rw [hys, List.getLast?_cons_cons] at hh
    have : (joinSep sep (t' :: rest)).getLast? = some h := by
      rw [hys]
      exact hh
    obtain ⟨u, hu, hul⟩ := joinSep_getLast sep (t' :: rest) h (by simp)
      (fun x hx => hts x (List.mem_cons_of_mem t hx)) this
    exact ⟨u, List.mem_cons_of_mem t hu, hul⟩

theorem mem_of_head?_eq_some {s : Str} {a : Char} (h : s.head? = some a) : a ∈ s := by
  cases s with
  | nil => simp at h
  | cons c t =>
    rw [List.head?_cons, Option.some_inj] at h
    exact h ▸ List.mem_cons_self c t

theorem chain'_noHH_of_all (s : Str) (h : ∀ c ∈ s, c ≠ '-') :
    List.Chain' (fun a b => ¬(a = '-' ∧ b = '-')) s := by
  induction s with
  | nil => simp
  | cons c t ih =>
    rw [List.chain'_cons']
    refine ⟨?_, ih (fun x hx => h x (List.mem_cons_of_mem c hx))⟩
    rintro y - ⟨hc, -⟩
    exact h c (List.mem_cons_self c t) hc

theorem joinSep_chain :
    ∀ ts : List Str, (∀ t ∈ ts, t ≠ [] ∧ ∀ c ∈ t, c ≠ '-') →
      List.Chain' (fun a b => ¬(a = '-' ∧ b = '-')) (joinSep '-' ts)
  | [], _ => by simp [joinSep]
  | [t], hts => by
    rw [joinSep]
    exact chain'_noHH_of_all t (hts t (List.mem_singleton.mpr rfl)).2
  | t :: t' :: rest, hts => by
    have htt := hts t (List.mem_cons_self _ _)
    have hrest : ∀ x ∈ t' :: rest, x ≠ [] ∧ ∀ c ∈ x, c ≠ '-' :=
      fun x hx => hts x (List.mem_cons_of_mem t hx)
    rw [joinSep, List.chain'_append]
    refine ⟨chain'_noHH_of_all t htt.2, ?_, ?_⟩
    · rw [List.chain'_cons']
      refine ⟨?_, joinSep_chain (t' :: rest) hrest⟩
      rintro y hy ⟨-, hy'⟩
      obtain ⟨u, hu, huh⟩ := joinSep_head '-' (t' :: rest) y (by simp)
        (fun x hx => (hrest x hx).1) hy
      exact (hrest u hu).2 y (mem_of_head?_eq_some huh) hy'
    · rintro x hx y - ⟨hx', -⟩
      exact htt.2 x (List.mem_of_getLast?_eq_some hx) hx'

/-! ### `containsSub` -/

theorem containsSub_iff (needle : Str) :
    ∀ haystack : Str, containsSub needle haystack = true ↔ needle <:+: haystack := by
  intro haystack
  induction haystack with
  | nil =>
    rw [containsSub]
    constructor
    · intro h
      have hn : needle = [] := by simpa [List.isEmpty_iff] using h
      exact hn ▸ List.infix_rfl
    · intro h
      simpa [List.isEmpty_iff] using List.eq_nil_of_infix_nil h
  | cons c rest ih =>
    rw [containsSub, Bool.or_eq_true, ih, List.isPrefixOf_iff_prefix,
      List.infix_cons_iff]

/-! ### Character-class facts -/

theorem pyLower_eq_self {c : Char} (h1 : c.toNat < 0x400)
    (h2 : ¬(65 ≤ c.toNat ∧ c.toNat ≤ 90)) : pyLower c = c := by
  unfold pyLower
  rw [if_neg (by omega), if_neg (by omega), if_neg h2, if_neg (by omega)]

theorem pyLower_upper_toNat {c : Char} (h : 65 ≤ c.toNat ∧ c.toNat ≤ 90) :
    (pyLower c).toNat = c.toNat + 32 := by
  unfold pyLower
  rw [if_neg (by omega), if_neg (by omega), if_pos h, char_toNat_ofNat (by omega)]

theorem goodSlugChar_ne_hyph {c : Char} (h : goodSlugChar c = true) : c ≠ '-' := by
  intro he
  rw [he] at h
  simp [goodSlugChar, isLowerA, isDigitA] at h

theorem pyIsSpace_toNat {c : Char} (h : pyIsSpace c = true) :
    c.toNat = 32 ∨ c.toNat = 9 ∨ c.toNat = 10 ∨ c.toNat = 13 ∨
      c.toNat = 11 ∨ c.toNat = 12 := by
  simp only [pyIsSpace, Bool.or_eq_true, decide_eq_true_eq] at h
  rcases h with ((((rfl | rfl) | rfl) | rfl) | rfl) | rfl <;> simp

/-- The central character fact behind the slug-domain guarantee: a character
allowed by the tokenizer whose lower-case form is not a separator is a
lower-case ASCII letter or digit. -/
theorem tok_char_good {d : Char} (h1 : isTokAllowed d = true)
    (h2 : isSepChar (pyLower d) = false) : goodSlugChar (pyLower d) = true := by
  have h1' := h1
  rw [isTokAllowed] at h1'
  simp only [Bool.or_eq_true] at h1'
  rcases h1' with ((((hu | hl) | hd) | hs) | hus) | hh
  · have hr : 65 ≤ d.toNat ∧ d.toNat ≤ 90 := by simpa [isUpperA] using hu
    have := pyLower_upper_toNat hr
    simp only [goodSlugChar, isLowerA, isDigitA, Bool.or_eq_true, decide_eq_true_eq]
    omega
  · have hr : 97 ≤ d.toNat ∧ d.toNat ≤ 122 := by simpa [isLowerA] using hl
    rw [pyLower_eq_self (by omega) (by omega)]
    simp [goodSlugChar, hl]
  · have hr : 48 ≤ d.toNat ∧ d.toNat ≤ 57 := by simpa [isDigitA] using hd
    rw [pyLower_eq_self (by omega) (by omega)]
    simp [goodSlugChar, hd]
  · have hn := pyIsSpace_toNat hs
    have hid : pyLower d = d := pyLower_eq_self (by omega) (by omega)
    rw [hid] at h2
    simp only [isSepChar, hs, Bool.true_or] at h2
    exact absurd h2 (by simp)
  · have hd' : d = '_' := by simpa using hus
    subst hd'
    exact absurd h2 (by decide)
  · have hd' : d = '-' := by simpa using hh
    subst hd'
    exact absurd h2 (by decide)

/-! ### Slug pipeline lemmas -/

theorem tokenizeSlug_good (text : Str) :
    ∀ t ∈ tokenizeSlug text, t ≠ [] ∧ ∀ c ∈ t, isSepChar c = false ∧ goodSlugChar c = true := by
  apply splitRuns_good isSepChar (fun c => goodSlugChar c = true)
  intro c hc
  rcases List.mem_map.mp hc with ⟨c', hc', rfl⟩
  rcases List.mem_map.mp hc' with ⟨c₀, -, rfl⟩
  have hall : isTokAllowed (if isTokAllowed c₀ then c₀ else ' ') = true := by
    split
    · assumption
    · decide
  by_cases hsep : isSepChar (pyLower (if isTokAllowed c₀ then c₀ else ' ')) = true
  · exact Or.inl hsep
  · exact Or.inr (tok_char_good hall (Bool.not_eq_true _ ▸ hsep))

theorem filter_stop_words_aux_subset :
    ∀ (ws seen : List Str), ∀ w ∈ filter_stop_words_aux ws seen, w ∈ ws
  | [], _ => by simp [filter_stop_words_aux]
  | w :: ws, seen => by
    intro x hx
    rw [filter_stop_words_aux] at hx
    split at hx
    · exact List.mem_cons_of_mem w (filter_stop_words_aux_subset ws seen x hx)
    · split at hx
      · exact List.mem_cons_of_mem w (filter_stop_words_aux_subset ws seen x hx)
      · rcases List.mem_cons.mp hx with rfl | hx'
        · exact List.mem_cons_self _ _
        · exact List.mem_cons_of_mem w (filter_stop_words_aux_subset ws (w :: seen) x hx')

theorem filter_stop_words_aux_nodup :
    ∀ (ws seen : List Str), (filter_stop_words_aux ws seen).Nodup ∧
      ∀ w ∈ filter_stop_words_aux ws seen, w ∉ seen
  | [], _ => by simp [filter_stop_words_aux]
  | w :: ws, seen => by
    rw [filter_stop_words_aux]
    split
    · exact filter_stop_words_aux_nodup ws seen
    · split
      · exact filter_stop_words_aux_nodup ws seen
      · rename_i hstop hseen
        obtain ⟨hnd, hmem⟩ := filter_stop_words_aux_nodup ws (w :: seen)
        refine ⟨List.nodup_cons.mpr ⟨?_, hnd⟩, ?_⟩
        · intro hw
          exact hmem w hw (List.mem_cons_self _ _)
        · intro x hx
          rcases List.mem_cons.mp hx with rfl | hx'
          · exact hseen
          · intro hxs
            exact hmem x hx' (List.mem_cons_of_mem w hxs)

theorem filter_stop_words_subset (ws : List Str) :
    ∀ w ∈ filter_stop_words ws, w ∈ ws :=
  filter_stop_words_aux_subset ws []

theorem filter_stop_words_nodup (ws : List Str) : (filter_stop_words ws).Nodup :=
  (filter_stop_words_aux_nodup ws []).1

theorem trim_keywords_sublist (ws : List Str) (n : Nat) :
    List.Sublist (trim_keywords ws n) ws := by
  unfold trim_keywords
  split
  · exact List.Sublist.refl ws
  · dsimp only
    split
    · exact List.take_sublist n ws
    · exact List.take_sublist 3 ws

theorem trim_keywords_ne_nil (ws : List Str) (n : Nat) (h : ws ≠ []) :
    trim_keywords ws n ≠ [] := by
  have hpos : 0 < ws.length := List.length_pos.mpr h
  unfold trim_keywords
  split
  · exact h
  · dsimp only
    rename_i hlen
    split
    · rename_i h3
      intro he
      rw [he] at h3
      simp at h3
    · apply List.ne_nil_of_length_pos
      rw [List.length_take]
      omega

theorem collapse_length (s : Str) : (collapse_hyphens s).length ≤ s.length :=
  (stripEdge_length _ _).trans (squeezeRuns_length _ _)

theorem collapse_subset (s : Str) : ∀ c ∈ collapse_hyphens s, c ∈ s :=
  fun c hc => squeezeRuns_subset _ s c (stripEdge_subset _ _ c hc)

theorem collapse_good (s : Str) (hs : ∀ c ∈ s, goodSlugChar c = true ∨ c = '-') :
    collapse_hyphens s = [] ∨ isSlugLike (collapse_hyphens s) := by
  by_cases he : collapse_hyphens s = []
  · exact Or.inl he
  · right
    refine ⟨he, ?_, ?_, ?_, ?_⟩
    · exact fun c hc => hs c (collapse_subset s c hc)
    · intro heq
      have := stripEdge_head _ _ '-' heq
      simp at this
    · intro heq
      have := stripEdge_getLast _ _ '-' heq
      simp at this
    · have h1 := squeezeRuns_chain (fun c => decide (c = '-')) s
      have h2 := stripEdge_chain (fun c => decide (c = '-')) _ h1
        (fun a b hab h' => hab ⟨h'.2, h'.1⟩)
      exact h2.imp (fun a b hab h' => hab (by simpa using h'))

theorem collapse_id (s : Str)
    (hch : List.Chain' (fun a b => ¬(a = '-' ∧ b = '-')) s)
    (hh : s.head? ≠ some '-') (hl : s.getLast? ≠ some '-') :
    collapse_hyphens s = s := by
  unfold collapse_hyphens
  rw [squeezeRuns_id _ s (hch.imp (fun a b hab h' => hab (by simpa using h')))]
  apply stripEdge_id
  · intro h hhh
    simp only [decide_eq_false_iff_not]
    intro hcon
    exact hh (hcon ▸ hhh)
  · intro h hhh
    simp only [decide_eq_false_iff_not]
    intro hcon
    exact hl (hcon ▸ hhh)

theorem slug_wrap (S : Str) :
    (if (if looks_like_template S || S.isEmpty then fallbackSlug else S).isEmpty then
      fallbackSlug
     else if looks_like_template S || S.isEmpty then fallbackSlug else S) =
    (if looks_like_template S || S.isEmpty then fallbackSlug else S) := by
  by_cases hC : (looks_like_template S || S.isEmpty) = true
  · rw [if_pos hC]
    exact if_neg (by decide)
  · rw [if_neg hC]
    apply if_neg
    intro habs
    exact hC (by simp [habs])

theorem generate_slug_eq (toLatin : Option (Str → Option Str)) (text : Str)
    (maxLength : Nat) :
    generate_slug toLatin text maxLength =
      (let tokens := tokenizeSlug (transliterate_uk toLatin text)
       let meaningful0 := filter_stop_words tokens
       let meaningful1 := if meaningful0.isEmpty then tokens else meaningful0
       let trimmed := trim_keywords meaningful1 5
       let slug := collapse_hyphens (joinSep '-' trimmed)
       let slug2 := if maxLength < slug.length then collapse_hyphens (slug.take maxLength) else slug
       if looks_like_template slug2 || slug2.isEmpty then fallbackSlug else slug2) := by
  unfold generate_slug
  dsimp only
  exact slug_wrap _

theorem slug_tail_good (trimmed : List Str) (maxLength : Nat) (R : Str)
    (hgood : ∀ t ∈ trimmed, ∀ c ∈ t, goodSlugChar c = true)
    (hR : R = (let slug := collapse_hyphens (joinSep '-' trimmed)
               let slug2 := if maxLength < slug.length then
                   collapse_hyphens (slug.take maxLength)
                 else slug
               if looks_like_template slug2 || slug2.isEmpty then fallbackSlug else slug2)) :
    (isSlugLike R ∨ R = fallbackSlug) ∧ R ≠ [] ∧
      (14 ≤ maxLength → R.length ≤ maxLength) := by
  dsimp only at hR
  have hchars : ∀ c ∈ joinSep '-' trimmed, goodSlugChar c = true ∨ c = '-' := by
    intro c hc
    rcases joinSep_mem '-' trimmed c hc with rfl | ⟨t, ht, hct⟩
    · exact Or.inr rfl
    · exact Or.inl (hgood t ht c hct)
  have hslug_chars : ∀ c ∈ collapse_hyphens (joinSep '-' trimmed),
      goodSlugChar c = true ∨ c = '-' :=
    fun c hc => hchars c (collapse_subset _ c hc)
  by_cases htr : maxLength < (collapse_hyphens (joinSep '-' trimmed)).length
  · rw [if_pos htr] at hR
    have hgood2 := collapse_good ((collapse_hyphens (joinSep '-' trimmed)).take maxLength)
      (fun c hc => hslug_chars c (List.mem_of_mem_take hc))
    have hlen2 : (collapse_hyphens ((collapse_hyphens (joinSep '-' trimmed)).take maxLength)).length ≤
        maxLength := by
      refine (collapse_length _).trans ?_
      rw [List.length_take]
      omega
    by_cases hc2 : (looks_like_template
        (collapse_hyphens ((collapse_hyphens (joinSep '-' trimmed)).take maxLength)) ||
        (collapse_hyphens ((collapse_hyphens (joinSep '-' trimmed)).take maxLength)).isEmpty) = true
    · rw [if_pos hc2] at hR
      subst hR
      refine ⟨Or.inr rfl, by decide, fun hml => ?_⟩
      have : fallbackSlug.length = 14 := by decide
      omega
    · rw [if_neg hc2] at hR
      subst hR
      have hne : ¬((collapse_hyphens ((collapse_hyphens (joinSep '-' trimmed)).take maxLength)).isEmpty = true) := by
        intro h
        exact hc2 (by simp [h])
      have hsl : isSlugLike (collapse_hyphens ((collapse_hyphens (joinSep '-' trimmed)).take maxLength)) := by
        rcases hgood2 with he | hs
        · exact absurd (by simp [he]) hne
        · exact hs
      exact ⟨Or.inl hsl, hsl.1, fun _ => hlen2⟩
  · rw [if_neg htr] at hR
    have hgood2 := collapse_good (joinSep '-' trimmed) hchars
    by_cases hc2 : (looks_like_template (collapse_hyphens (joinSep '-' trimmed)) ||
        (collapse_hyphens (joinSep '-' trimmed)).isEmpty) = true
    · rw [if_pos hc2] at hR
      subst hR
      refine ⟨Or.inr rfl, by decide, fun hml => ?_⟩
      have : fallbackSlug.length = 14 := by decide
      omega
    · rw [if_neg hc2] at hR
      subst hR
      have hne : ¬((collapse_hyphens (joinSep '-' trimmed)).isEmpty = true) := by
        intro h
        exact hc2 (by simp [h])
      have hsl : isSlugLike (collapse_hyphens (joinSep '-' trimmed)) := by
        rcases hgood2 with he | hs
        · exact absurd (by simp [he]) hne
        · exact hs
      exact ⟨Or.inl hsl, hsl.1, fun _ => by omega⟩

/-- C1.  For every input, every transliteration capability and every
`max_length`, the slug is in the regex language or is the fallback constant,
and is never empty.  The length bound, however, holds only when `max_length`
is at least the fallback constant's length 14 (see `claim_C1_cex`): the
amended length clause carries that hypothesis. -/
theorem claim_C1 (toLatin : Option (Str → Option Str)) (text : Str) (maxLength : Nat) :
    (isSlugLike (generate_slug toLatin text maxLength) ∨
      generate_slug toLatin text maxLength = fallbackSlug) ∧
    generate_slug toLatin text maxLength ≠ [] ∧
    (14 ≤ maxLength → (generate_slug toLatin text maxLength).length ≤ maxLength) := by
  apply slug_tail_good
  · intro t ht c hc
    have ht' : t ∈ (if (filter_stop_words (tokenizeSlug (transliterate_uk toLatin text))).isEmpty then
        tokenizeSlug (transliterate_uk toLatin text)
      else filter_stop_words (tokenizeSlug (transliterate_uk toLatin text))) :=
      (trim_keywords_sublist _ 5).subset ht
    have htok : t ∈ tokenizeSlug (transliterate_uk toLatin text) := by
      split at ht'
      · exact ht'
      · exact filter_stop_words_subset _ t ht'
    exact ((tokenizeSlug_good _ t htok).2 c hc).2
  · exact generate_slug_eq toLatin text maxLength

/-- C1 witness: the theorem applied at a concrete input, with the
`14 ≤ max_length` hypothesis of the amended length clause discharged. -/
theorem claim_C1_witness :
    14 ≤ 75 ∧ (generate_slug none "Привіт світ".toList 75).length ≤ 75 :=
  ⟨by decide, (claim_C1 none "Привіт світ".toList 75).2.2 (by decide)⟩

/-- C1 counterexample to the claim as stated: with `max_length = 3` the
empty input produces the fallback slug `ukrfix-article`, whose length 14
exceeds `max_length`. -/
theorem claim_C1_cex : ¬((generate_slug none [] 3).length ≤ 3) := by decide

/-- C8 (amended).  When the stop-word-filtered token list is non-empty *and*
the hyphen-joined keyword list does not exceed `max_length` (so no length
truncation occurs), the slug's hyphen-separated tokens are pairwise distinct;
moreover they are exactly the trimmed output of `_filter_stop_words`, which
drops duplicates keeping the first occurrence of each token (unless the
joined slug matches the template pattern, in which case the fallback slug —
itself duplicate-free — is substituted).  Truncation can cut a later token
down to a copy of an earlier one, see `claim_C8_cex`. -/
theorem claim_C8 (toLatin : Option (Str → Option Str)) (text : Str) (maxLength : Nat)
    (h1 : filter_stop_words (tokenizeSlug (transliterate_uk toLatin text)) ≠ [])
    (h2 : (joinSep '-' (trim_keywords
        (filter_stop_words (tokenizeSlug (transliterate_uk toLatin text))) 5)).length ≤
      maxLength) :
    (slugTokens (generate_slug toLatin text maxLength)).Nodup ∧
    (generate_slug toLatin text maxLength = fallbackSlug ∨
      slugTokens (generate_slug toLatin text maxLength) =
        trim_keywords (filter_stop_words (tokenizeSlug (transliterate_uk toLatin text))) 5) := by
  rw [generate_slug_eq]
  dsimp only
  set F := filter_stop_words (tokenizeSlug (transliterate_uk toLatin text)) with hF
  have hms : (if F.isEmpty = true then tokenizeSlug (transliterate_uk toLatin text) else F) = F :=
    if_neg (by simpa [List.isEmpty_iff] using h1)
  rw [hms]
  set T := trim_keywords F 5 with hT
  have hTgood : ∀ t ∈ T, t ≠ [] ∧ ∀ c ∈ t, c ≠ '-' := by
    intro t ht
    have htok : t ∈ tokenizeSlug (transliterate_uk toLatin text) :=
      filter_stop_words_subset _ t ((trim_keywords_sublist F 5).subset ht)
    have hg := tokenizeSlug_good _ t htok
    exact ⟨hg.1, fun c hc => goodSlugChar_ne_hyph (hg.2 c hc).2⟩
  have hTne : T ≠ [] := trim_keywords_ne_nil F 5 h1
  have hid : collapse_hyphens (joinSep '-' T) = joinSep '-' T := by
    apply collapse_id
    · exact joinSep_chain T hTgood
    · intro hh
      obtain ⟨u, hu, huh⟩ := joinSep_head '-' T '-' hTne (fun x hx => (hTgood x hx).1) hh
      exact (hTgood u hu).2 '-' (mem_of_head?_eq_some huh) rfl
    · intro hh
      obtain ⟨u, hu, huh⟩ := joinSep_getLast '-' T '-' hTne (fun x hx => (hTgood x hx).1) hh
      exact (hTgood u hu).2 '-' (List.mem_of_getLast?_eq_some huh) rfl
  have horder : ¬ (maxLength < (joinSep '-' T).length) := by omega
  rw [hid, if_neg horder]
  have hsplit : splitRuns (fun c => decide (c = '-')) (joinSep '-' T) = T :=
    splitRuns_joinSep _ (by decide) T hTne
      (fun t ht => ⟨(hTgood t ht).1, fun c hc => by
        simpa using (hTgood t ht).2 c hc⟩)
  split
  · exact ⟨by decide, Or.inl rfl⟩
  · refine ⟨?_, Or.inr ?_⟩
    · unfold slugTokens
      rw [hsplit]
      exact (filter_stop_words_nodup _).sublist (trim_keywords_sublist F 5)
    · unfold slugTokens
      rw [hsplit]

/-- C8 witness: a three-token input whose middle token repeats the first;
both hypotheses are discharged concretely and the slug's tokens come out
pairwise distinct and equal to the deduplicated keyword list. -/
theorem claim_C8_witness :
    filter_stop_words (tokenizeSlug (transliterate_uk none "hello world hello".toList)) ≠ [] ∧
    (joinSep '-' (trim_keywords (filter_stop_words (tokenizeSlug
        (transliterate_uk none "hello world hello".toList))) 5)).length ≤ 75 ∧
    ((slugTokens (generate_slug none "hello world hello".toList 75)).Nodup ∧
      (generate_slug none "hello world hello".toList 75 = fallbackSlug ∨
        slugTokens (generate_slug none "hello world hello".toList 75) =
          trim_keywords (filter_stop_words (tokenizeSlug
            (transliterate_uk none "hello world hello".toList))) 5)) :=
  ⟨by decide, by decide,
    claim_C8 none "hello world hello".toList 75 (by decide) (by decide)⟩

/-- C8 counterexample to the claim as stated: for `repeatTokenText` the
stop-word-filtered token list is the non-empty, duplicate-free
`[ab, c⁶⁹, abz]`, yet the default 75-character cut truncates the joined
76-character slug, turning the third token `abz` into `ab` — a copy of the
first token — so the slug's token list is `[ab, c⁶⁹, ab]` and is not
duplicate-free. -/
theorem claim_C8_cex :
    filter_stop_words (tokenizeSlug (transliterate_uk none repeatTokenText)) =
      ["ab".toList, List.replicate 69 'c', "abz".toList] ∧
    generate_slug none repeatTokenText 75 =
      "ab-".toList ++ List.replicate 69 'c' ++ "-ab".toList ∧
    slugTokens (generate_slug none repeatTokenText 75) =
      ["ab".toList, List.replicate 69 'c', "ab".toList] ∧
    ¬ (slugTokens (generate_slug none repeatTokenText 75)).Nodup := by
  refine ⟨by decide, by decide, by decide, by decide⟩

/-- C2 evaluation at the failing input (code bug).  The optional library is
present and — as the source's own comment anticipates — returns its input
unchanged for text it cannot convert.  The returned string consists of
Cyrillic characters, yet `transliterate_uk` hands it through verbatim
instead of falling back, because the doubled backslashes in the raw-string
pattern of line 143 make the guard match code points 0x30–0x5C and `u`
instead of the Cyrillic block: the output still contains source-alphabet
characters, contradicting the claimed guarantee, while the deterministic
fallback would have produced pure ASCII. -/
theorem claim_C2 :
    transliterate_uk (some (fun s => some s)) "стаття".toList = "стаття".toList ∧
    containsCyrillic "стаття".toList = true ∧
    fallback_transliterate "стаття".toList = "stattya".toList ∧
    containsCyrillic (fallback_transliterate "стаття".toList) = false := by
  refine ⟨by decide, by decide, by decide, by decide⟩

/-- C5.  Appending an article whose slug already occurs in the store is a
no-op: the record list is returned unchanged. -/
theorem claim_C5 (article : ArticleData) (wpUrl : Str) (records : List HistRecord)
    (h : ∃ r ∈ records, r.slug = some article.slug) :
    add_article_record article wpUrl records = records := by
  unfold add_article_record
  dsimp only
  have hc : (records.any fun r => decide (r.slug = some article.slug)) = true := by
    rw [List.any_eq_true]
    rcases h with ⟨r, hr, hs⟩
    exact ⟨r, hr, by simp [hs]⟩
  rw [if_pos hc]

/-- C5 witness: the sample store already holds slug `s2`; appending an
article with that slug returns the store unchanged. -/
theorem claim_C5_witness :
    (∃ r ∈ sampleRecords,
      r.slug = some (⟨"t2".toList, [], [], "s2".toList, [], [], none, none⟩ :
        ArticleData).slug) ∧
    add_article_record ⟨"t2".toList, [], [], "s2".toList, [], [], none, none⟩
      "https://w".toList sampleRecords = sampleRecords :=
  ⟨by decide, claim_C5 ⟨"t2".toList, [], [], "s2".toList, [], [], none, none⟩
    "https://w".toList sampleRecords (by decide)⟩

theorem truncateTitle_length (t : Str) (ml : Nat) :
    (truncateTitle t ml).length ≤ ml := by
  unfold truncateTitle
  split
  · assumption
  · dsimp only
    split <;> split <;> first | (rw [List.length_take]; omega) | omega

/-- C7.  With the default budget of 60, both returned case variants of
`optimize_title` have length at most 60. -/
theorem claim_C7 (raw : Str) :
    ((optimize_title raw 60).2.1).length ≤ 60 ∧
    ((optimize_title raw 60).2.2).length ≤ 60 := by
  unfold optimize_title
  dsimp only
  have htc := truncateTitle_length (to_title_case (trim_stop_words (clean_text raw))) 60
  have hsc := truncateTitle_length (to_sentence_case (trim_stop_words (clean_text raw))) 60
  have hdef : (DEFAULT_TITLE).length ≤ 60 := by decide
  refine ⟨?_, ?_⟩ <;> split_ifs <;> omega

/-- C9.  The title-case variant is truncated to `max_length` before the
fits-within-budget check, so it always fits and is always the chosen title;
under the claim's hypothesis that it is non-empty, the chosen title equals
the title-case variant. -/
theorem claim_C9 (raw : Str) (maxLength : Nat)
    (_h : (optimize_title raw maxLength).2.1 ≠ []) :
    (optimize_title raw maxLength).1 = (optimize_title raw maxLength).2.1 := by
  unfold optimize_title
  dsimp only
  have htc := truncateTitle_length (to_title_case (trim_stop_words (clean_text raw))) maxLength
  rw [if_pos htc]
  by_cases he : (truncateTitle (to_title_case (trim_stop_words (clean_text raw)))
      maxLength).isEmpty = true
  · simp only [if_pos he]
  · simp only [if_neg he]

/-- C9 witness: a plain one-word title has a non-empty title-case variant,
and the chosen title is that variant. -/
theorem claim_C9_witness :
    (optimize_title "hello".toList 60).2.1 ≠ [] ∧
    (optimize_title "hello".toList 60).1 = (optimize_title "hello".toList 60).2.1 :=
  ⟨by decide, claim_C9 "hello".toList 60 (by decide)⟩

/-- C10.  With a non-empty link list in which every link's url is missing or
empty, no list item is built and the HTML is returned unchanged. -/
theorem claim_C10 (content : Str) (links : List LinkD) (_hne : links ≠ [])
    (hurl : ∀ l ∈ links, l.url = none ∨ l.url = some []) :
    inject_internal_links content links = content := by
  unfold inject_internal_links
  split
  · rfl
  · split
    · rfl
    · dsimp only
      have hfil : links.filter (fun l => !(l.url.getD []).isEmpty) = [] := by
        rw [List.filter_eq_nil_iff]
        intro l hl
        rcases hurl l hl with h | h <;> simp [h]
      rw [hfil]
      rfl

/-- C10 witness: one link with a missing url; the content is unchanged. -/
theorem claim_C10_witness :
    ([(⟨"t".toList, none⟩ : LinkD)] ≠ []) ∧
    (∀ l ∈ [(⟨"t".toList, none⟩ : LinkD)], l.url = none ∨ l.url = some []) ∧
    inject_internal_links "<p>x</p>".toList [⟨"t".toList, none⟩] = "<p>x</p>".toList :=
  ⟨by decide, by decide, claim_C10 _ _ (by decide) (by decide)⟩

/-- C6.  `ensure_cta_block` is idempotent: its output always contains the
`add-listing` marker, so a second application changes nothing. -/
theorem claim_C6 (content : Str) :
    ensure_cta_block (ensure_cta_block content) = ensure_cta_block content := by
  by_cases h : (containsSub (CTA_TEXT.map pyLower) (content.map pyLower) ||
      containsSub "add-listing".toList (content.map pyLower)) = true
  · have e : ensure_cta_block content = content := by
      unfold ensure_cta_block
      rw [if_pos h]
    rw [e, e]
  · have e : ensure_cta_block content =
        (content.reverse.dropWhile pyIsSpace).reverse ++ "\n\n".toList ++
          CTA_BLOCK ++ "\n".toList := by
      unfold ensure_cta_block
      rw [if_neg h]
    have hcond : (containsSub (CTA_TEXT.map pyLower)
        (((content.reverse.dropWhile pyIsSpace).reverse ++ "\n\n".toList ++
          CTA_BLOCK ++ "\n".toList).map pyLower) ||
        containsSub "add-listing".toList
        (((content.reverse.dropWhile pyIsSpace).reverse ++ "\n\n".toList ++
          CTA_BLOCK ++ "\n".toList).map pyLower)) = true := by
      rw [Bool.or_eq_true]
      right
      rw [containsSub_iff]
      have hinf : "add-listing".toList <:+: CTA_BLOCK.map pyLower :=
        (containsSub_iff _ _).mp (by decide)
      refine hinf.trans ?_
      simp only [List.map_append]
      exact List.infix_append _ _ _
    have e2 : ensure_cta_block ((content.reverse.dropWhile pyIsSpace).reverse ++
        "\n\n".toList ++ CTA_BLOCK ++ "\n".toList) =
        (content.reverse.dropWhile pyIsSpace).reverse ++ "\n\n".toList ++
          CTA_BLOCK ++ "\n".toList := by
      unfold ensure_cta_block
      rw [if_pos hcond]
    rw [e, e2]

/-! ### Link recommender ordering -/

theorem mem_insertScored (a x : Nat × Nat × HistRecord) :
    ∀ l, x ∈ insertScored a l ↔ x = a ∨ x ∈ l
  | [] => by simp [insertScored]
  | b :: t => by
    rw [insertScored]
    split
    · rw [List.mem_cons, mem_insertScored a x t, List.mem_cons]
      tauto
    · rw [List.mem_cons, List.mem_cons]

theorem mem_sortScoredDesc (x : Nat × Nat × HistRecord) :
    ∀ l, x ∈ sortScoredDesc l → x ∈ l
  | [] => by simp [sortScoredDesc]
  | a :: t => by
    intro hx
    rw [sortScoredDesc] at hx
    rcases (mem_insertScored a x (sortScoredDesc t)).mp hx with rfl | hx'
    · exact List.mem_cons_self _ _
    · exact List.mem_cons_of_mem a (mem_sortScoredDesc x t hx')

theorem insertScored_pairwise (a : Nat × Nat × HistRecord) :
    ∀ (l : List (Nat × Nat × HistRecord)), l.Pairwise scoreLex →
      (∀ x ∈ l, x.2.1 < a.2.1) → (insertScored a l).Pairwise scoreLex
  | [], _, _ => by simp [insertScored]
  | b :: t, hl, ha => by
    rw [insertScored]
    obtain ⟨hbt, htp⟩ := List.pairwise_cons.mp hl
    split
    · rename_i hab
      rw [List.pairwise_cons]
      refine ⟨?_, insertScored_pairwise a t htp
        (fun x hx => ha x (List.mem_cons_of_mem b hx))⟩
      intro x hx
      rcases (mem_insertScored a x t).mp hx with rfl | hx'
      · exact Or.inl hab
      · exact hbt x hx'
    · rename_i hab
      rw [List.pairwise_cons]
      refine ⟨?_, hl⟩
      intro x hx
      rcases List.mem_cons.mp hx with rfl | hx'
      · rcases Nat.lt_or_ge x.1 a.1 with hlt | hge
        · exact Or.inl hlt
        · exact Or.inr ⟨by omega, ha x (List.mem_cons_self _ _)⟩
      · rcases hbt x hx' with hxb | ⟨heq, hidx⟩
        · rcases Nat.lt_or_ge x.1 a.1 with hlt | hge
          · exact Or.inl hlt
          · exact absurd hab (by simp; omega)
        · rcases Nat.lt_or_ge x.1 a.1 with hlt | hge
          · exact Or.inl hlt
          · exact Or.inr ⟨by omega, ha x (List.mem_cons_of_mem b hx')⟩

theorem sortScoredDesc_pairwise :
    ∀ (l : List (Nat × Nat × HistRecord)), l.Pairwise (fun x y => y.2.1 < x.2.1) →
      (sortScoredDesc l).Pairwise scoreLex
  | [], _ => by simp [sortScoredDesc]
  | a :: t, hl => by
    rw [sortScoredDesc]
    obtain ⟨hat, htp⟩ := List.pairwise_cons.mp hl
    exact insertScored_pairwise a (sortScoredDesc t) (sortScoredDesc_pairwise t htp)
      (fun x hx => hat x (mem_sortScoredDesc x t hx))

theorem scoredCandidates_idx (a : ArticleData) (records : List HistRecord) :
    (scoredCandidates a records).Pairwise (fun x y => y.2.1 < x.2.1) := by
  unfold scoredCandidates
  rw [List.pairwise_filterMap]
  have h1 : records.enum.Pairwise (fun p q => p.1 < q.1) := by
    have h0 : (records.enum.map Prod.fst).Pairwise (· < ·) := by
      rw [List.enum_map_fst]
      exact List.pairwise_lt_range _
    exact List.pairwise_map.mp h0
  have h2 : records.enum.reverse.Pairwise (fun p q => q.1 < p.1) := by
    rw [List.pairwise_reverse]
    exact h1
  refine h2.imp ?_
  intro p q hpq b hb b' hb'
  rcases Option.map_eq_some'.mp hb with ⟨s, -, rfl⟩
  rcases Option.map_eq_some'.mp hb' with ⟨s', -, rfl⟩
  exact hpq

/-- C3.  The internal sorted candidate list is ordered by score descending,
and among equal scores the entry with the larger `records` index — the more
recently appended record — comes first; `find_internal_links` returns the
projection of its `max_links`-prefix. -/
theorem claim_C3 (a : ArticleData) (records : List HistRecord) :
    (sortScoredDesc (scoredCandidates a records)).Pairwise
      (fun x y => y.1 ≤ x.1 ∧ (x.1 = y.1 → y.2.1 < x.2.1)) ∧
    ∀ maxLinks, find_internal_links a records maxLinks =
      (if records.isEmpty then []
       else ((sortScoredDesc (scoredCandidates a records)).take maxLinks).map
         (fun e => ⟨e.2.2.title.getD [], some (e.2.2.url.getD [])⟩)) := by
  constructor
  · refine (sortScoredDesc_pairwise _ (scoredCandidates_idx a records)).imp ?_
    intro x y hxy
    rcases hxy with hlt | ⟨heq, hidx⟩
    · exact ⟨Nat.le_of_lt hlt, fun he => absurd he (by omega)⟩
    · exact ⟨Nat.le_of_eq heq.symm, fun _ => hidx⟩
  · intro maxLinks
    rfl

/-- C4.  Every link returned by `find_internal_links` is the projection of a
record in the store whose token set meets the article's token set: a
zero-overlap candidate is never returned.  In particular the result can be
shorter than `max_links`, including empty, as on the disjoint sample data. -/
theorem claim_C4 :
    (∀ (a : ArticleData) (records : List HistRecord) (maxLinks : Nat) (lk : LinkD),
      lk ∈ find_internal_links a records maxLinks →
      ∃ r ∈ records, lk.title = r.title.getD [] ∧ lk.url = some (r.url.getD []) ∧
        (articleTokens a ∩ recTokens r).card ≠ 0) ∧
    (sampleRecords ≠ [] ∧ find_internal_links sampleArticle sampleRecords 2 = []) := by
  refine ⟨?_, by decide, by decide⟩
  intro a records maxLinks lk hlk
  unfold find_internal_links at hlk
  split at hlk
  · simp at hlk
  · rcases List.mem_map.mp hlk with ⟨e, he, rfl⟩
    have he2 : e ∈ sortScoredDesc (scoredCandidates a records) := List.mem_of_mem_take he
    have he3 : e ∈ scoredCandidates a records := mem_sortScoredDesc e _ he2
    unfold scoredCandidates at he3
    rcases List.mem_filterMap.mp he3 with ⟨p, hp, hpe⟩
    rcases Option.map_eq_some'.mp hpe with ⟨s, hs, rfl⟩
    refine ⟨p.2, List.snd_mem_of_mem_enum (List.mem_reverse.mp hp), rfl, rfl, ?_⟩
    unfold candidateScore at hs
    split at hs
    · exact absurd hs (by simp)
    · split at hs
      · exact absurd hs (by simp)
      · dsimp only at hs
        split at hs
        · exact absurd hs (by simp)
        · split at hs
          · exact absurd hs (by simp)
          · assumption

/-- C4 witness: on the overlapping sample data the returned link arises from
a record sharing the token `alpha` with the article. -/
theorem claim_C4_witness :
    ((⟨"alpha two".toList, some "u2".toList⟩ : LinkD) ∈
      find_internal_links overlapArticle overlapRecords 2) ∧
    (∃ r ∈ overlapRecords,
      (⟨"alpha two".toList, some "u2".toList⟩ : LinkD).title = r.title.getD [] ∧
      (⟨"alpha two".toList, some "u2".toList⟩ : LinkD).url = some (r.url.getD []) ∧
      (articleTokens overlapArticle ∩ recTokens r).card ≠ 0) :=
  ⟨by decide, claim_C4.1 overlapArticle overlapRecords 2 _ (by decide)⟩
